import Mathlib

/-!
Verification of the minion-version classifier (`src/python/main.py`).

The embedding models:
* Python's built-in `int()` applied to the dot-separated segments of a
  version string (restricted to ASCII input: surrounding ASCII whitespace
  is stripped, an optional leading sign is accepted, and underscore digit
  separators are accepted strictly between digits — exactly CPython's
  base-10 acceptance rules on ASCII strings);
* `str.split(".")`;
* `parse_version`;
* `filter_by_version`, with the inventory dictionary rendered as an
  association list in insertion order (a Python dict has unique keys and
  iterates in insertion order) and a raised exception rendered as `none`.

Host records carry only the optional `saltversion` field: the code reads
no other field, so the arbitrary extra metadata of a record is irrelevant
to every property proved here.
-/

/-- The ASCII whitespace characters stripped by Python's `int()`. -/
def isPySpace (c : Char) : Bool :=
  c = ' ' || c = '\t' || c = '\n' || c = '\r' || c = '\x0b' || c = '\x0c'

/-- Strip leading and trailing Python whitespace. -/
def pyStrip (l : List Char) : List Char :=
  (((l.dropWhile isPySpace).reverse).dropWhile isPySpace).reverse

/-- Decimal value of a digit character. -/
def digitVal (c : Char) : Nat := c.toNat - 48

/-- Digit run after its first digit: digits, with `_` allowed strictly
between digits (CPython rejects a trailing `_` and a doubled `_`). -/
def pyDigitsAux : List Char → Nat → Option Nat
  | [], acc => some acc
  | '_' :: c :: rest, acc =>
      if c.isDigit then pyDigitsAux rest (acc * 10 + digitVal c) else none
  | ['_'], _ => none
  | c :: rest, acc =>
      if c.isDigit then pyDigitsAux rest (acc * 10 + digitVal c) else none

/-- A nonempty digit run (underscores only between digits), as in
CPython's base-10 literal grammar: it must start with a digit. -/
def pyDigits : List Char → Option Nat
  | [] => none
  | c :: rest => if c.isDigit then pyDigitsAux rest (digitVal c) else none

/-- Python's `int(s)` on an ASCII string: strip whitespace, optional
sign, then a digit run. `none` models the raised `ValueError`. -/
def pyInt (l : List Char) : Option Int :=
  match pyStrip l with
  | '+' :: rest => (pyDigits rest).map Int.ofNat
  | '-' :: rest => (pyDigits rest).map (fun n => -Int.ofNat n)
  | t => (pyDigits t).map Int.ofNat

/-- Python's `s.split(".")`: every occurrence of `'.'` separates, empty
segments included; the empty string yields one empty segment. -/
def pySplitDot : List Char → List (List Char)
  | [] => [[]]
  | c :: rest =>
      match pySplitDot rest with
      | [] => [[c]]
      | seg :: segs =>
          if c = '.' then [] :: seg :: segs else (c :: seg) :: segs

/-- `parse_version` from `main.py`: split on `"."`, `int` of the first
segment is the major, `int` of the second segment (when present) is the
minor, else the minor is `0`. `none` models the raised exception. -/
def parse_version (s : String) : Option (Int × Int) :=
  match pySplitDot s.data with
  | [] => none
  | [p0] => (pyInt p0).map (fun m => (m, 0))
  | p0 :: p1 :: _ =>
      match pyInt p0, pyInt p1 with
      | some a, some b => some (a, b)
      | _, _ => none

/-- Decimal digits of a natural number, most significant first, via
explicit fuel (`n + 1` steps always suffice). -/
def natDigitsAux : Nat → Nat → List Char → List Char
  | 0, _, acc => acc
  | fuel + 1, n, acc =>
      let d := Char.ofNat (48 + n % 10)
      if n < 10 then d :: acc else natDigitsAux fuel (n / 10) (d :: acc)

/-- Decimal rendering of a natural number, no leading zeros. -/
def natDigits (n : Nat) : List Char := natDigitsAux (n + 1) n []

/-- Python's `str`/f-string rendering of an `int`. -/
def pyIntRepr (v : Int) : List Char :=
  if v < 0 then '-' :: natDigits v.natAbs else natDigits v.natAbs

/-- The f-string `f"{major}.{minor}"` used for flagged hosts. -/
def fmtVersion (a b : Int) : String :=
  ⟨pyIntRepr a ++ '.' :: pyIntRepr b⟩

/-- A host record as read by the code: only the optional `saltversion`
field is ever consulted; other metadata fields are ignored. -/
structure HostRecord where
  saltversion : Option String
deriving DecidableEq, Repr

/-- An inventory: host id to record, in dict insertion order. -/
abbrev Inventory := List (String × HostRecord)

/-- `Python list(map(f, xs))` when `f` can raise: `none` if `f` raises
on any element. -/
def mapO (f : α → Option β) : List α → Option (List β)
  | [] => some []
  | a :: l =>
      match f a, mapO f l with
      | some b, some r => some (b :: r)
      | _, _ => none

/-- The unresponsive ids: hosts lacking `saltversion`, in order. -/
def unresponsiveOf (inv : Inventory) : List String :=
  (inv.filter (fun it => it.2.saltversion.isNone)).map Prod.fst

/-- The responsive entries: hosts whose record has `saltversion`. -/
def responsiveOf (inv : Inventory) : Inventory :=
  inv.filter (fun it => it.2.saltversion.isSome)

/-- One step of the `parsed_minions` map: pair the id with the parsed
version of its `saltversion` value. -/
def parseMinion (it : String × HostRecord) : Option (String × (Int × Int)) :=
  match it.2.saltversion with
  | some v => (parse_version v).map (fun p => (it.1, p))
  | none => none

/-- `filter_by_version` from `main.py`; the three returned collections
are (updatable, higher-version, unresponsive), with each flagged host
rendered as the singleton pair id to `f"{major}.{minor}"`. `none`
models the exception propagated out of a failed `parse_version`. -/
def filter_by_version (max_version : String) (minion_data : Inventory) :
    Option (List (String × String) × List (String × String) × List String) :=
  match parse_version max_version with
  | none => none
  | some (maxMajor, maxMinor) =>
      match mapO parseMinion (responsiveOf minion_data) with
      | none => none
      | some parsed =>
          some
            ((parsed.filter
                (fun it => decide (it.2.1 < maxMajor) && decide (it.2.2 < maxMinor))).map
              (fun it => (it.1, fmtVersion it.2.1 it.2.2)),
             (parsed.filter
                (fun it => decide (it.2.1 = maxMajor) && decide (it.2.2 > maxMinor))).map
              (fun it => (it.1, fmtVersion it.2.1 it.2.2)),
             unresponsiveOf minion_data)

/-! ## Helper lemmas -/

lemma mapO_forall2 {f : α → Option β} :
    ∀ {l : List α} {r : List β}, mapO f l = some r →
      List.Forall₂ (fun a b => f a = some b) l r
  | [], r, h => by
      simp only [mapO] at h
      cases h
      exact List.Forall₂.nil
  | a :: l, r, h => by
      simp only [mapO] at h
      cases hfa : f a with
      | none => rw [hfa] at h; exact absurd h (by simp)
      | some b =>
          rw [hfa] at h
          cases hrec : mapO f l with
          | none => rw [hrec] at h; exact absurd h (by simp)
          | some r' =>
              rw [hrec] at h
              cases h
              exact List.Forall₂.cons hfa (mapO_forall2 hrec)

lemma mapO_of_forall2 {f : α → Option β} :
    ∀ {l : List α} {r : List β},
      List.Forall₂ (fun a b => f a = some b) l r → mapO f l = some r
  | [], [], _ => rfl
  | _ :: _, _ :: _, List.Forall₂.cons hfa hrest => by
      simp only [mapO, hfa, mapO_of_forall2 hrest]

lemma mapO_eq_none {f : α → Option β} {a : α} :
    ∀ {l : List α}, a ∈ l → f a = none → mapO f l = none
  | [], ha, _ => absurd ha (List.not_mem_nil a)
  | x :: l, ha, hfa => by
      rcases List.mem_cons.1 ha with rfl | hmem
      · simp [mapO, hfa]
      · simp only [mapO, mapO_eq_none hmem hfa]
        cases f x <;> rfl

lemma mapO_isSome {f : α → Option β} :
    ∀ {l : List α}, (∀ a ∈ l, ∃ b, f a = some b) → ∃ r, mapO f l = some r
  | [], _ => ⟨[], rfl⟩
  | a :: l, h => by
      obtain ⟨b, hb⟩ := h a (List.mem_cons_self a l)
      obtain ⟨r, hr⟩ := mapO_isSome (fun x hx => h x (List.mem_cons_of_mem a hx))
      exact ⟨b :: r, by simp [mapO, hb, hr]⟩

lemma forall2_mem_left {R : α → β → Prop} {a : α} :
    ∀ {l : List α} {r : List β}, List.Forall₂ R l r → a ∈ l → ∃ b ∈ r, R a b
  | _, _, List.Forall₂.cons hxy hrest, ha => by
      rcases List.mem_cons.1 ha with rfl | hmem
      · exact ⟨_, List.mem_cons_self _ _, hxy⟩
      · obtain ⟨b, hb, hRb⟩ := forall2_mem_left hrest hmem
        exact ⟨b, List.mem_cons_of_mem _ hb, hRb⟩

lemma forall2_mem_right {R : α → β → Prop} {b : β} :
    ∀ {l : List α} {r : List β}, List.Forall₂ R l r → b ∈ r → ∃ a ∈ l, R a b
  | _, _, List.Forall₂.cons hxy hrest, hb => by
      rcases List.mem_cons.1 hb with rfl | hmem
      · exact ⟨_, List.mem_cons_self _ _, hxy⟩
      · obtain ⟨a, ha, hRa⟩ := forall2_mem_right hrest hmem
        exact ⟨a, List.mem_cons_of_mem _ ha, hRa⟩

lemma key_unique {l : List (α × β)} (hnd : (l.map Prod.fst).Nodup)
    {a : α} {b₁ b₂ : β} (h₁ : (a, b₁) ∈ l) (h₂ : (a, b₂) ∈ l) : b₁ = b₂ := by
  induction l with
  | nil => exact absurd h₁ (List.not_mem_nil _)
  | cons x l ih =>
      simp only [List.map_cons, List.nodup_cons] at hnd
      rcases List.mem_cons.1 h₁ with rfl | hm₁ <;>
        rcases List.mem_cons.1 h₂ with h | hm₂
      · exact (congrArg Prod.snd h).symm
      · exact absurd (List.mem_map_of_mem Prod.fst hm₂) hnd.1
      · subst h
        exact absurd (List.mem_map_of_mem Prod.fst hm₁) hnd.1
      · exact ih hnd.2 hm₁ hm₂

/-- The updatable predicate of `filter_by_version`, as a Bool test. -/
def updPred (A B : Int) (it : String × (Int × Int)) : Bool :=
  decide (it.2.1 < A) && decide (it.2.2 < B)

/-- The higher-version predicate of `filter_by_version`, as a Bool test. -/
def highPred (A B : Int) (it : String × (Int × Int)) : Bool :=
  decide (it.2.1 = A) && decide (it.2.2 > B)

/-- Rendering step applied to each flagged entry. -/
def renderEntry (it : String × (Int × Int)) : String × String :=
  (it.1, fmtVersion it.2.1 it.2.2)

lemma filter_success {max_version : String} {inv : Inventory}
    {U H : List (String × String)} {R : List String}
    (h : filter_by_version max_version inv = some (U, H, R)) :
    ∃ A B parsed, parse_version max_version = some (A, B) ∧
      mapO parseMinion (responsiveOf inv) = some parsed ∧
      U = (parsed.filter (updPred A B)).map renderEntry ∧
      H = (parsed.filter (highPred A B)).map renderEntry ∧
      R = unresponsiveOf inv := by
  unfold filter_by_version at h
  cases hmax : parse_version max_version with
  | none => rw [hmax] at h; exact absurd h (by simp)
  | some p =>
      obtain ⟨A, B⟩ := p
      rw [hmax] at h
      cases hparse : mapO parseMinion (responsiveOf inv) with
      | none => rw [hparse] at h; exact absurd h (by simp)
      | some parsed =>
          rw [hparse] at h
          simp only [Option.some_inj, Prod.mk.injEq] at h
          exact ⟨A, B, parsed, rfl, rfl, h.1.symm, h.2.1.symm, h.2.2.symm⟩

lemma parseMinion_some {it : String × HostRecord} {b : String × (Int × Int)}
    (h : parseMinion it = some b) :
    b.1 = it.1 ∧ ∃ v, it.2.saltversion = some v ∧ parse_version v = some b.2 := by
  unfold parseMinion at h
  cases hv : it.2.saltversion with
  | none => rw [hv] at h; exact absurd h (by simp)
  | some v =>
      rw [hv] at h
      rw [Option.map_eq_some'] at h
      obtain ⟨p, hp, rfl⟩ := h
      exact ⟨rfl, v, rfl, hp⟩

lemma parsed_map_fst {l : Inventory} {r : List (String × (Int × Int))}
    (h : List.Forall₂ (fun a b => parseMinion a = some b) l r) :
    r.map Prod.fst = l.map Prod.fst := by
  induction h with
  | nil => rfl
  | cons hab _ ih =>
      simp only [List.map_cons, ih, (parseMinion_some hab).1]

lemma mem_responsive {inv : Inventory} {id : String} {rec : HostRecord} :
    (id, rec) ∈ responsiveOf inv ↔ (id, rec) ∈ inv ∧ rec.saltversion.isSome := by
  simp [responsiveOf, List.mem_filter]

lemma responsive_nodup {inv : Inventory} (h : (inv.map Prod.fst).Nodup) :
    ((responsiveOf inv).map Prod.fst).Nodup :=
  h.sublist (List.Sublist.map Prod.fst (List.filter_sublist inv))

/-- Membership in the parsed list, in terms of the inventory. -/
lemma mem_parsed {inv : Inventory} {parsed : List (String × (Int × Int))}
    (hparse : mapO parseMinion (responsiveOf inv) = some parsed)
    {id : String} {p : Int × Int} :
    (id, p) ∈ parsed ↔
      ∃ rec v, (id, rec) ∈ inv ∧ rec.saltversion = some v ∧
        parse_version v = some p := by
  have hf := mapO_forall2 hparse
  constructor
  · intro hmem
    obtain ⟨a, ha, hab⟩ := forall2_mem_right hf hmem
    obtain ⟨hfst, v, hv, hpv⟩ := parseMinion_some hab
    obtain ⟨aid, arec⟩ := a
    cases hfst
    exact ⟨arec, v, (mem_responsive.1 ha).1, hv, hpv⟩
  · rintro ⟨rec, v, hmem, hv, hpv⟩
    have hresp : (id, rec) ∈ responsiveOf inv :=
      mem_responsive.2 ⟨hmem, by rw [hv]; rfl⟩
    obtain ⟨b, hb, hab⟩ := forall2_mem_left hf hresp
    obtain ⟨hfst, v', hv', hpv'⟩ := parseMinion_some hab
    have hvv : v' = v := by rw [hv] at hv'; exact (Option.some_inj.1 hv').symm
    subst hvv
    rw [hpv] at hpv'
    obtain ⟨bid, bp⟩ := b
    cases hfst
    cases Option.some_inj.1 hpv'
    exact hb

lemma parsed_nodup {inv : Inventory} {parsed : List (String × (Int × Int))}
    (hnd : (inv.map Prod.fst).Nodup)
    (hparse : mapO parseMinion (responsiveOf inv) = some parsed) :
    (parsed.map Prod.fst).Nodup := by
  rw [parsed_map_fst (mapO_forall2 hparse)]
  exact responsive_nodup hnd

lemma mem_flagged {parsed : List (String × (Int × Int))}
    {pred : (String × (Int × Int)) → Bool} {id s} :
    (id, s) ∈ (parsed.filter pred).map renderEntry ↔
      ∃ p, (id, p) ∈ parsed ∧ pred (id, p) = true ∧ s = fmtVersion p.1 p.2 := by
  simp only [List.mem_map, List.mem_filter]
  constructor
  · rintro ⟨⟨iid, p⟩, ⟨hmem, hpred⟩, heq⟩
    simp only [renderEntry, Prod.mk.injEq] at heq
    obtain ⟨rfl, rfl⟩ := heq
    exact ⟨p, hmem, hpred, rfl⟩
  · rintro ⟨p, hmem, hpred, rfl⟩
    exact ⟨(id, p), ⟨hmem, hpred⟩, rfl⟩

/-! ## Claims -/

/-- C1: a successfully parsed host `(a, b)` against max `(A, B)` lands in
the Updatable set iff `a < A` and `b < B` — a conjunction on both
components, not a lexicographic comparison. -/
theorem c1_updatable_conjunction
    (max_version : String) (inv : Inventory)
    (U H : List (String × String)) (R : List String)
    (id : String) (rec : HostRecord) (v : String) (A B a b : Int)
    (hnd : (inv.map Prod.fst).Nodup)
    (hrun : filter_by_version max_version inv = some (U, H, R))
    (hmem : (id, rec) ∈ inv)
    (hv : rec.saltversion = some v)
    (hp : parse_version v = some (a, b))
    (hmax : parse_version max_version = some (A, B)) :
    (∃ s, (id, s) ∈ U) ↔ (a < A ∧ b < B) := by
  obtain ⟨A', B', parsed, hmax', hparse, hU, _, _⟩ := filter_success hrun
  rw [hmax'] at hmax
  simp only [Option.some_inj, Prod.mk.injEq] at hmax
  obtain ⟨rfl, rfl⟩ := hmax
  subst hU
  have hin : (id, (a, b)) ∈ parsed := (mem_parsed hparse).2 ⟨rec, v, hmem, hv, hp⟩
  constructor
  · rintro ⟨s, hs⟩
    obtain ⟨p, hpmem, hpred, _⟩ := mem_flagged.1 hs
    have hpe : p = (a, b) := key_unique (parsed_nodup hnd hparse) hpmem hin
    subst hpe
    simpa [updPred] using hpred
  · rintro ⟨h1, h2⟩
    exact ⟨fmtVersion a b,
      mem_flagged.2 ⟨(a, b), hin, by simp [updPred, h1, h2], rfl⟩⟩

/-- Witness for C1 at host version 3006.2 against max 3007.6. -/
theorem c1_witness :
    (∃ s, (("h1" : String), s) ∈ ([("h1", "3006.2")] : List (String × String))) ↔
      ((3006 : Int) < 3007 ∧ (2 : Int) < 6) :=
  c1_updatable_conjunction "3007.6" [("h1", ⟨some "3006.2"⟩)]
    [("h1", "3006.2")] [] [] "h1" ⟨some "3006.2"⟩ "3006.2" 3007 6 3006 2
    (by decide) (by decide) (by decide) rfl (by decide) (by decide)

/-- C2: a successfully parsed host `(a, b)` against max `(A, B)` lands in
the HigherVersion set iff `a = A` and `b > B`; a host whose major differs
from the max's major is never flagged higher-version. -/
theorem c2_higher_version_same_major
    (max_version : String) (inv : Inventory)
    (U H : List (String × String)) (R : List String)
    (id : String) (rec : HostRecord) (v : String) (A B a b : Int)
    (hnd : (inv.map Prod.fst).Nodup)
    (hrun : filter_by_version max_version inv = some (U, H, R))
    (hmem : (id, rec) ∈ inv)
    (hv : rec.saltversion = some v)
    (hp : parse_version v = some (a, b))
    (hmax : parse_version max_version = some (A, B)) :
    (∃ s, (id, s) ∈ H) ↔ (a = A ∧ b > B) := by
  obtain ⟨A', B', parsed, hmax', hparse, _, hH, _⟩ := filter_success hrun
  rw [hmax'] at hmax
  simp only [Option.some_inj, Prod.mk.injEq] at hmax
  obtain ⟨rfl, rfl⟩ := hmax
  subst hH
  have hin : (id, (a, b)) ∈ parsed := (mem_parsed hparse).2 ⟨rec, v, hmem, hv, hp⟩
  constructor
  · rintro ⟨s, hs⟩
    obtain ⟨p, hpmem, hpred, _⟩ := mem_flagged.1 hs
    have hpe : p = (a, b) := key_unique (parsed_nodup hnd hparse) hpmem hin
    subst hpe
    simpa [highPred] using hpred
  · rintro ⟨h1, h2⟩
    exact ⟨fmtVersion a b,
      mem_flagged.2 ⟨(a, b), hin, by simp [highPred, h1, h2], rfl⟩⟩

/-- Witness for C2 at host version 3007.10 against max 3007.6. -/
theorem c2_witness :
    (∃ s, (("h2" : String), s) ∈ ([("h2", "3007.10")] : List (String × String))) ↔
      ((3007 : Int) = 3007 ∧ (10 : Int) > 6) :=
  c2_higher_version_same_major "3007.6" [("h2", ⟨some "3007.10"⟩)]
    [] [("h2", "3007.10")] [] "h2" ⟨some "3007.10"⟩ "3007.10" 3007 6 3007 10
    (by decide) (by decide) (by decide) rfl (by decide) (by decide)

lemma mem_map_fst {l : List (α × β)} {a : α} :
    a ∈ l.map Prod.fst ↔ ∃ b, (a, b) ∈ l := by
  simp only [List.mem_map]
  constructor
  · rintro ⟨⟨x, y⟩, hm, rfl⟩
    exact ⟨y, hm⟩
  · rintro ⟨b, hm⟩
    exact ⟨(a, b), hm, rfl⟩

lemma mem_unresponsive {inv : Inventory} {id : String} :
    id ∈ unresponsiveOf inv ↔
      ∃ rec, (id, rec) ∈ inv ∧ rec.saltversion = none := by
  simp only [unresponsiveOf, List.mem_map, List.mem_filter]
  constructor
  · rintro ⟨⟨iid, rec⟩, ⟨hm, hnone⟩, rfl⟩
    exact ⟨rec, hm, Option.isNone_iff_eq_none.1 hnone⟩
  · rintro ⟨rec, hm, hnone⟩
    exact ⟨(id, rec), ⟨hm, by rw [hnone]; rfl⟩, rfl⟩

lemma mem_fst_flagged (pred : (String × (Int × Int)) → Bool)
    {parsed : List (String × (Int × Int))} {id : String}
    (hnd : (parsed.map Prod.fst).Nodup) {p : Int × Int}
    (hin : (id, p) ∈ parsed) :
    id ∈ ((parsed.filter pred).map renderEntry).map Prod.fst ↔
      pred (id, p) = true := by
  rw [mem_map_fst]
  constructor
  · rintro ⟨s, hs⟩
    obtain ⟨p', hp'mem, hpred, _⟩ := mem_flagged.1 hs
    have hpe : p' = p := key_unique hnd hp'mem hin
    subst hpe
    exact hpred
  · intro hpred
    exact ⟨fmtVersion p.1 p.2, mem_flagged.2 ⟨p, hin, hpred, rfl⟩⟩

/-- C3: on a successful classification, each host id of the inventory
lies in exactly one of the four buckets: unresponsive, updatable,
higher-version, or unclassified-in-range (none of the three sets). -/
theorem c3_partition
    (max_version : String) (inv : Inventory)
    (U H : List (String × String)) (R : List String)
    (id : String) (rec : HostRecord)
    (hnd : (inv.map Prod.fst).Nodup)
    (hrun : filter_by_version max_version inv = some (U, H, R))
    (hmem : (id, rec) ∈ inv) :
    (id ∈ R ∧ id ∉ U.map Prod.fst ∧ id ∉ H.map Prod.fst) ∨
    (id ∉ R ∧ id ∈ U.map Prod.fst ∧ id ∉ H.map Prod.fst) ∨
    (id ∉ R ∧ id ∉ U.map Prod.fst ∧ id ∈ H.map Prod.fst) ∨
    (id ∉ R ∧ id ∉ U.map Prod.fst ∧ id ∉ H.map Prod.fst) := by
  obtain ⟨A, B, parsed, hmax, hparse, hU, hH, hR⟩ := filter_success hrun
  subst hU hH hR
  have hpnd := parsed_nodup hnd hparse
  cases hsalt : rec.saltversion with
  | none =>
      refine Or.inl ⟨mem_unresponsive.2 ⟨rec, hmem, hsalt⟩, ?_, ?_⟩
      all_goals
        intro hid
        rw [mem_map_fst] at hid
        obtain ⟨s, hs⟩ := hid
        obtain ⟨p, hpmem, _, _⟩ := mem_flagged.1 hs
        obtain ⟨rec', v', hmem', hv', _⟩ := (mem_parsed hparse).1 hpmem
        have hre : rec' = rec := key_unique hnd hmem' hmem
        subst hre
        rw [hsalt] at hv'
        exact Option.noConfusion hv'
  | some v =>
      have hnotR : id ∉ unresponsiveOf inv := by
        intro hid
        obtain ⟨rec', hmem', hnone⟩ := mem_unresponsive.1 hid
        have hre : rec' = rec := key_unique hnd hmem' hmem
        subst hre
        rw [hsalt] at hnone
        exact Option.noConfusion hnone
      have hresp : (id, rec) ∈ responsiveOf inv :=
        mem_responsive.2 ⟨hmem, by rw [hsalt]; rfl⟩
      obtain ⟨b, hb, hab⟩ := forall2_mem_left (mapO_forall2 hparse) hresp
      obtain ⟨hfst, v', hv', hpv⟩ := parseMinion_some hab
      obtain ⟨bid, p⟩ := b
      subst hfst
      have hKU := mem_fst_flagged (updPred A B) hpnd hb
      have hKH := mem_fst_flagged (highPred A B) hpnd hb
      by_cases h1 : updPred A B (bid, p) = true
      · refine Or.inr (Or.inl ⟨hnotR, hKU.2 h1, ?_⟩)
        intro hid
        have h2 := hKH.1 hid
        simp only [updPred, Bool.and_eq_true, decide_eq_true_eq] at h1
        simp only [highPred, Bool.and_eq_true, decide_eq_true_eq] at h2
        exact absurd h2.1 (ne_of_lt h1.1)
      · by_cases h2 : highPred A B (bid, p) = true
        · exact Or.inr (Or.inr (Or.inl
            ⟨hnotR, fun hid => h1 (hKU.1 hid), hKH.2 h2⟩))
        · exact Or.inr (Or.inr (Or.inr
            ⟨hnotR, fun hid => h1 (hKU.1 hid), fun hid => h2 (hKH.1 hid)⟩))

/-- Witness for C3: an unresponsive host lands only in the third set. -/
theorem c3_witness :
    ((("h3" : String) ∈ ["h3"] ∧
        "h3" ∉ ([] : List (String × String)).map Prod.fst ∧
        "h3" ∉ ([] : List (String × String)).map Prod.fst) ∨
      (("h3" : String) ∉ ["h3"] ∧
        "h3" ∈ ([] : List (String × String)).map Prod.fst ∧
        "h3" ∉ ([] : List (String × String)).map Prod.fst) ∨
      (("h3" : String) ∉ ["h3"] ∧
        "h3" ∉ ([] : List (String × String)).map Prod.fst ∧
        "h3" ∈ ([] : List (String × String)).map Prod.fst) ∨
      (("h3" : String) ∉ ["h3"] ∧
        "h3" ∉ ([] : List (String × String)).map Prod.fst ∧
        "h3" ∉ ([] : List (String × String)).map Prod.fst)) :=
  c3_partition "3007.6" [("h3", ⟨none⟩)] [] [] ["h3"] "h3" ⟨none⟩
    (by decide) (by decide) (by decide)

/-- C7: a parse failure of the max version, or of any responsive host's
version string, makes the whole classification call fail: no partial
result, no per-host isolation. -/
theorem c7_parse_failure_is_fatal (max_version : String) (inv : Inventory) :
    (parse_version max_version = none →
      filter_by_version max_version inv = none) ∧
    (∀ id rec v, (id, rec) ∈ inv → rec.saltversion = some v →
      parse_version v = none → filter_by_version max_version inv = none) := by
  constructor
  · intro h
    unfold filter_by_version
    rw [h]
  · intro id rec v hmem hv hpv
    unfold filter_by_version
    cases hmax : parse_version max_version with
    | none => rfl
    | some p =>
        obtain ⟨A, B⟩ := p
        have hresp : (id, rec) ∈ responsiveOf inv :=
          mem_responsive.2 ⟨hmem, by rw [hv]; rfl⟩
        have hpm : parseMinion (id, rec) = none := by
          simp [parseMinion, hv, hpv]
        rw [mapO_eq_none hresp hpm]

/-- Witness for C7: one malformed host version aborts the whole call. -/
theorem c7_witness :
    filter_by_version "3007.6" [("h", ⟨some "a.b"⟩)] = none :=
  (c7_parse_failure_is_fatal "3007.6" [("h", ⟨some "a.b"⟩)]).2
    "h" ⟨some "a.b"⟩ "a.b" (by decide) rfl (by decide)

lemma mem_pyStrip {c : Char} {l : List Char} (h : c ∈ pyStrip l) : c ∈ l := by
  unfold pyStrip at h
  rw [List.mem_reverse] at h
  have h2 := (List.dropWhile_sublist isPySpace).subset h
  rw [List.mem_reverse] at h2
  exact (List.dropWhile_sublist isPySpace).subset h2

lemma pyInt_nonneg {l : List Char} {v : Int} (h : pyInt l = some v)
    (hm : '-' ∉ l) : 0 ≤ v := by
  unfold pyInt at h
  split at h
  case h_1 rest heq =>
    cases hd : pyDigits rest with
    | none => rw [hd] at h; exact Option.noConfusion h
    | some n =>
        rw [hd] at h
        cases Option.some_inj.1 h
        exact Int.natCast_nonneg n
  case h_2 rest heq =>
    exact absurd (mem_pyStrip (heq ▸ List.mem_cons_self '-' rest)) hm
  case h_3 =>
    cases hd : pyDigits (pyStrip l) with
    | none => rw [hd] at h; exact Option.noConfusion h
    | some n =>
        rw [hd] at h
        cases Option.some_inj.1 h
        exact Int.natCast_nonneg n

lemma mem_of_mem_splitDot {c : Char} :
    ∀ {l p : List Char}, p ∈ pySplitDot l → c ∈ p → c ∈ l
  | [], p, hp, hc => by
      simp only [pySplitDot, List.mem_singleton] at hp
      subst hp
      exact absurd hc (List.not_mem_nil c)
  | x :: rest, p, hp, hc => by
      cases hsp : pySplitDot rest with
      | nil =>
          simp only [pySplitDot, hsp, List.mem_singleton] at hp
          subst hp
          rw [List.mem_singleton] at hc
          subst hc
          exact List.mem_cons_self c rest
      | cons seg segs =>
          simp only [pySplitDot, hsp] at hp
          by_cases hx : x = '.'
          · rw [if_pos hx] at hp
            rcases List.mem_cons.1 hp with rfl | hp'
            · exact absurd hc (List.not_mem_nil c)
            · exact List.mem_cons_of_mem x
                (mem_of_mem_splitDot (by rw [hsp]; exact hp') hc)
          · rw [if_neg hx] at hp
            rcases List.mem_cons.1 hp with rfl | hp'
            · rcases List.mem_cons.1 hc with rfl | hc'
              · exact List.mem_cons_self c rest
              · exact List.mem_cons_of_mem x
                  (mem_of_mem_splitDot
                    (by rw [hsp]; exact List.mem_cons_self seg segs) hc')
            · exact List.mem_cons_of_mem x
                (mem_of_mem_splitDot
                  (by rw [hsp]; exact List.mem_cons_of_mem seg hp') hc)

lemma parse_version_nil {s : String} (hsplit : pySplitDot s.data = []) :
    parse_version s = none := by
  unfold parse_version
  rw [hsplit]

lemma parse_version_single {s : String} {p0 : List Char}
    (hsplit : pySplitDot s.data = [p0]) :
    parse_version s = (pyInt p0).map (fun m => (m, 0)) := by
  unfold parse_version
  rw [hsplit]

lemma parse_version_multi {s : String} {p0 p1 : List Char}
    {r : List (List Char)} (hsplit : pySplitDot s.data = p0 :: p1 :: r) :
    parse_version s =
      (match pyInt p0, pyInt p1 with
       | some a, some b => some (a, b)
       | _, _ => none) := by
  unfold parse_version
  rw [hsplit]

/-- C4: `parse_version` splits on `.`, takes the integer value of the
first segment as major and of the second segment (when present) as
minor, else minor is 0; `"3007.6"` gives `(3007, 6)`, `"5"` gives
`(5, 0)`, and the empty string and `"a.b"` fail. -/
theorem c4_parse_version_split :
    (∀ (s : String) (a b : Int), parse_version s = some (a, b) →
      ∃ p0 rest, pySplitDot s.data = p0 :: rest ∧ pyInt p0 = some a ∧
        ((rest = [] ∧ b = 0) ∨
          ∃ p1 rest2, rest = p1 :: rest2 ∧ pyInt p1 = some b)) ∧
    parse_version "3007.6" = some (3007, 6) ∧
    parse_version "5" = some (5, 0) ∧
    parse_version "" = none ∧
    parse_version "a.b" = none := by
  refine ⟨?_, by decide, by decide, by decide, by decide⟩
  intro s a b h
  cases hsplit : pySplitDot s.data with
  | nil => rw [parse_version_nil hsplit] at h; exact Option.noConfusion h
  | cons p0 rest =>
      cases rest with
      | nil =>
          rw [parse_version_single hsplit] at h
          cases h0 : pyInt p0 with
          | none => rw [h0] at h; exact Option.noConfusion h
          | some m =>
              rw [h0] at h
              cases Option.some_inj.1 h
              exact ⟨p0, [], rfl, h0, Or.inl ⟨rfl, rfl⟩⟩
      | cons p1 rest2 =>
          rw [parse_version_multi hsplit] at h
          cases h0 : pyInt p0 with
          | none => rw [h0] at h; exact Option.noConfusion h
          | some x =>
              cases h1 : pyInt p1 with
              | none => rw [h0, h1] at h; exact Option.noConfusion h
              | some y =>
                  rw [h0, h1] at h
                  cases Option.some_inj.1 h
                  exact ⟨p0, p1 :: rest2, rfl, h0,
                    Or.inr ⟨p1, rest2, rfl, h1⟩⟩

/-- Witness for C4 at `"3007.6"`. -/
theorem c4_witness :
    ∃ p0 rest, pySplitDot ("3007.6" : String).data = p0 :: rest ∧
      pyInt p0 = some 3007 ∧
      ((rest = [] ∧ (6 : Int) = 0) ∨
        ∃ p1 rest2, rest = p1 :: rest2 ∧ pyInt p1 = some 6) :=
  c4_parse_version_split.1 "3007.6" 3007 6 (by decide)

/-- C5 counterexample: a non-numeric THIRD component does not make
`parse_version` fail — `"3.4.x"` parses to `(3, 4)`, the claim's
required failure does not occur. -/
theorem c5_cex_third_component :
    parse_version "3.4.x" = some (3, 4) ∧ parse_version "3.4.x" ≠ none :=
  ⟨by decide, by decide⟩

/-- C5 amended: only the consumed segments decide failure — for a
version string with at least two segments, `parse_version` fails iff
the first or the second segment is not parseable as an integer;
components after the second are never examined. -/
theorem c5_amended_only_consumed_segments
    (s : String) (p0 p1 : List Char) (rest : List (List Char))
    (hsplit : pySplitDot s.data = p0 :: p1 :: rest) :
    parse_version s = none ↔ (pyInt p0 = none ∨ pyInt p1 = none) := by
  rw [parse_version_multi hsplit]
  cases h0 : pyInt p0 <;> cases h1 : pyInt p1 <;> simp

/-- Witness for C5 at `"3.4.x"`. -/
theorem c5_witness :
    parse_version "3.4.x" = none ↔
      (pyInt ['3'] = none ∨ pyInt ['4'] = none) :=
  c5_amended_only_consumed_segments "3.4.x" ['3'] ['4'] [['x']] (by decide)

/-- C6 counterexample: `parse_version "-1.0"` succeeds with a NEGATIVE
major component, so successful parses are not always non-negative. -/
theorem c6_cex_negative_component :
    parse_version "-1.0" = some (-1, 0) ∧ ¬(0 ≤ (-1 : Int)) :=
  ⟨by decide, by decide⟩

/-- C6 amended: both components of a successful parse are non-negative
whenever the input contains no `'-'` character (a leading minus in a
segment, accepted by Python's `int`, is the only way to go negative). -/
theorem c6_amended_nonneg_when_unsigned
    (s : String) (a b : Int)
    (h : parse_version s = some (a, b)) (hm : '-' ∉ s.data) :
    0 ≤ a ∧ 0 ≤ b := by
  cases hsplit : pySplitDot s.data with
  | nil => rw [parse_version_nil hsplit] at h; exact Option.noConfusion h
  | cons p0 rest =>
      have hm0 : '-' ∉ p0 := fun hc =>
        hm (mem_of_mem_splitDot (hsplit ▸ List.mem_cons_self p0 rest) hc)
      cases rest with
      | nil =>
          rw [parse_version_single hsplit] at h
          cases h0 : pyInt p0 with
          | none => rw [h0] at h; exact Option.noConfusion h
          | some m =>
              rw [h0] at h
              cases Option.some_inj.1 h
              exact ⟨pyInt_nonneg h0 hm0, le_refl 0⟩
      | cons p1 rest2 =>
          rw [parse_version_multi hsplit] at h
          have hm1 : '-' ∉ p1 := fun hc =>
            hm (mem_of_mem_splitDot
              (hsplit ▸ List.mem_cons_of_mem p0 (List.mem_cons_self p1 rest2)) hc)
          cases h0 : pyInt p0 with
          | none => rw [h0] at h; exact Option.noConfusion h
          | some x =>
              cases h1 : pyInt p1 with
              | none => rw [h0, h1] at h; exact Option.noConfusion h
              | some y =>
                  rw [h0, h1] at h
                  cases Option.some_inj.1 h
                  exact ⟨pyInt_nonneg h0 hm0, pyInt_nonneg h1 hm1⟩

/-- Witness for C6's amended statement at `"3007.6"`. -/
theorem c6_witness : (0 : Int) ≤ 3007 ∧ (0 : Int) ≤ 6 :=
  c6_amended_nonneg_when_unsigned "3007.6" 3007 6 (by decide) (by decide)

/-- C10: `parse_version` inherits the leniency of Python's `int()`:
segments with surrounding whitespace, a leading `+`, or underscore
digit separators parse successfully. -/
theorem c10_int_leniency :
    parse_version " 3 .5" = some (3, 5) ∧
    parse_version "+3.5" = some (3, 5) ∧
    parse_version "1_0.2" = some (10, 2) :=
  ⟨by decide, by decide, by decide⟩

lemma flagged_map_fst (parsed : List (String × (Int × Int)))
    (pred : (String × (Int × Int)) → Bool) :
    ((parsed.filter pred).map renderEntry).map Prod.fst =
      (parsed.filter pred).map Prod.fst := by
  rw [List.map_map]
  exact List.map_congr_left fun a _ => rfl

/-- C9: the unresponsive list is, in inventory iteration order, exactly
the ids of hosts lacking the version field; the flagged sets also follow
inventory iteration order (their key sequences are subsequences of the
inventory's key sequence); and unresponsive hosts are never parsed — the
call succeeds from the max version and the responsive hosts' strings
alone, whatever the unresponsive records contain. -/
theorem c9_iteration_order :
    (∀ max_version inv U H R,
      filter_by_version max_version inv = some (U, H, R) →
      List.Sublist R (inv.map Prod.fst) ∧
      (∀ id, id ∈ R ↔ ∃ rec, (id, rec) ∈ inv ∧ rec.saltversion = none) ∧
      List.Sublist (U.map Prod.fst) (inv.map Prod.fst) ∧
      List.Sublist (H.map Prod.fst) (inv.map Prod.fst)) ∧
    (∀ max_version inv A B,
      parse_version max_version = some (A, B) →
      (∀ (id : String) rec v, (id, rec) ∈ inv → rec.saltversion = some v →
        ∃ p, parse_version v = some p) →
      ∃ res, filter_by_version max_version inv = some res) := by
  constructor
  · intro max_version inv U H R hrun
    obtain ⟨A, B, parsed, hmax, hparse, hU, hH, hR⟩ := filter_success hrun
    subst hU hH hR
    have hpfst : parsed.map Prod.fst = (responsiveOf inv).map Prod.fst :=
      parsed_map_fst (mapO_forall2 hparse)
    refine ⟨List.Sublist.map Prod.fst (List.filter_sublist inv),
      fun id => mem_unresponsive, ?_, ?_⟩
    · rw [flagged_map_fst]
      have h1 : List.Sublist ((parsed.filter (updPred A B)).map Prod.fst)
          (parsed.map Prod.fst) :=
        List.Sublist.map Prod.fst (List.filter_sublist parsed)
      rw [hpfst] at h1
      exact h1.trans (List.Sublist.map Prod.fst (List.filter_sublist inv))
    · rw [flagged_map_fst]
      have h1 : List.Sublist ((parsed.filter (highPred A B)).map Prod.fst)
          (parsed.map Prod.fst) :=
        List.Sublist.map Prod.fst (List.filter_sublist parsed)
      rw [hpfst] at h1
      exact h1.trans (List.Sublist.map Prod.fst (List.filter_sublist inv))
  · intro max_version inv A B hmax hall
    have hsome : ∀ it ∈ responsiveOf inv, ∃ b, parseMinion it = some b := by
      intro it hit
      obtain ⟨hmem, hsalt⟩ := List.mem_filter.1 hit
      obtain ⟨v, hv⟩ := Option.isSome_iff_exists.1 hsalt
      obtain ⟨p, hp⟩ := hall it.1 it.2 v hmem hv
      exact ⟨(it.1, p), by simp [parseMinion, hv, hp]⟩
    obtain ⟨parsed, hparsed⟩ := mapO_isSome hsome
    exact ⟨((parsed.filter (updPred A B)).map renderEntry,
            (parsed.filter (highPred A B)).map renderEntry,
            unresponsiveOf inv), by
      unfold filter_by_version
      rw [hmax, hparsed]
      rfl⟩

/-- Witness for C9 on a two-host inventory: the unresponsive list is a
subsequence of the id sequence and contains exactly the version-less
host. -/
theorem c9_witness :
    (List.Sublist ["h3"] (["h1", "h3"] : List String)) ∧
      ((("h3" : String) ∈ (["h3"] : List String)) ↔
        ∃ rec, (("h3" : String), rec) ∈
            ([("h1", ⟨some "3006.2"⟩), ("h3", ⟨none⟩)] : Inventory) ∧
          rec.saltversion = none) := by
  have h := c9_iteration_order.1 "3007.6"
    [("h1", ⟨some "3006.2"⟩), ("h3", ⟨none⟩)]
    [("h1", "3006.2")] [] ["h3"] (by decide)
  exact ⟨h.1, h.2.1 "h3"⟩

lemma digitChar_isDigit {m : Nat} (h : m < 10) :
    (Char.ofNat (48 + m)).isDigit = true := by
  interval_cases m <;> decide

lemma digitChar_eq_zero {m : Nat} (h : m < 10) :
    (Char.ofNat (48 + m) = '0') ↔ m = 0 := by
  interval_cases m <;> decide

lemma natDigitsAux_spec :
    ∀ (fuel n : Nat) (acc : List Char), n < fuel →
      ∃ ds, natDigitsAux fuel n acc = ds ++ acc ∧ ds ≠ [] ∧
        (∀ c ∈ ds, c.isDigit = true) ∧
        (n ≠ 0 → ds.head? ≠ some '0') ∧
        (n = 0 → ds = ['0'])
  | 0, n, _, h => absurd h (Nat.not_lt_zero n)
  | fuel + 1, n, acc, h => by
      by_cases h10 : n < 10
      · refine ⟨[Char.ofNat (48 + n % 10)], ?_, by simp, ?_, ?_, ?_⟩
        · simp [natDigitsAux, h10]
        · intro c hc
          rw [List.mem_singleton] at hc
          subst hc
          exact digitChar_isDigit (Nat.mod_lt n (by decide))
        · intro hn0
          simp only [List.head?_cons, ne_eq, Option.some_inj]
          intro hzero
          rw [digitChar_eq_zero (Nat.mod_lt n (by decide)),
            Nat.mod_eq_of_lt h10] at hzero
          exact hn0 hzero
        · intro h0
          subst h0
          rfl
      · have hlt : n / 10 < fuel := by
          have h1 : n / 10 < n := Nat.div_lt_self (by omega) (by decide)
          omega
        obtain ⟨ds, hds, hne, hdig, hhd, _⟩ :=
          natDigitsAux_spec fuel (n / 10) (Char.ofNat (48 + n % 10) :: acc) hlt
        refine ⟨ds ++ [Char.ofNat (48 + n % 10)], ?_, by simp [hne], ?_, ?_, ?_⟩
        · rw [List.append_assoc, List.singleton_append]
          rw [← hds]
          simp [natDigitsAux, h10]
        · intro c hc
          rcases List.mem_append.1 hc with hc' | hc'
          · exact hdig c hc'
          · rw [List.mem_singleton] at hc'
            subst hc'
            exact digitChar_isDigit (Nat.mod_lt n (by omega))
        · intro _
          cases ds with
          | nil => exact absurd rfl hne
          | cons d ds' =>
              simp only [List.cons_append, List.head?_cons]
              have := hhd (by omega)
              simpa using this
        · intro h0
          exact absurd (by omega : n < 10) h10

lemma natDigits_spec (n : Nat) :
    natDigits n ≠ [] ∧ (∀ c ∈ natDigits n, c.isDigit = true) ∧
      (n ≠ 0 → (natDigits n).head? ≠ some '0') ∧
      (n = 0 → natDigits n = ['0']) := by
  obtain ⟨ds, hds, hne, hdig, hhd, hz⟩ :=
    natDigitsAux_spec (n + 1) n [] (Nat.lt_succ_self n)
  unfold natDigits
  rw [hds, List.append_nil]
  exact ⟨hne, hdig, hhd, hz⟩

/-- C8: every flagged host is recorded with its version rendered as
`"{major}.{minor}"` — both components always present and printed in
decimal with no leading zeros — even when the original string omitted
the minor (a host reporting `"5"` is rendered `"5.0"`). -/
theorem c8_flagged_rendering :
    (∀ max_version inv U H R (id s : String),
      filter_by_version max_version inv = some (U, H, R) →
      ((id, s) ∈ U ∨ (id, s) ∈ H) →
      ∃ rec v a b, (id, rec) ∈ inv ∧ rec.saltversion = some v ∧
        parse_version v = some (a, b) ∧ s = fmtVersion a b) ∧
    (∀ a b : Int, (fmtVersion a b).data = pyIntRepr a ++ '.' :: pyIntRepr b) ∧
    (∀ v : Int, 0 ≤ v → pyIntRepr v = natDigits v.natAbs) ∧
    (∀ n : Nat, (∀ c ∈ natDigits n, c.isDigit = true) ∧
      (n ≠ 0 → (natDigits n).head? ≠ some '0') ∧
      (n = 0 → natDigits n = ['0'])) ∧
    filter_by_version "3007.6" [("h", ⟨some "5"⟩)] =
      some ([("h", "5.0")], [], []) := by
  refine ⟨?_, fun a b => rfl, ?_, ?_, by decide⟩
  · intro max_version inv U H R id s hrun hmem
    obtain ⟨A, B, parsed, hmax, hparse, hU, hH, _⟩ := filter_success hrun
    subst hU hH
    rcases hmem with hs | hs
    all_goals
      obtain ⟨p, hpmem, _, hsf⟩ := mem_flagged.1 hs
      obtain ⟨rec, v, hmem', hv, hpv⟩ := (mem_parsed hparse).1 hpmem
      exact ⟨rec, v, p.1, p.2, hmem', hv, hpv, hsf⟩
  · intro v hv
    unfold pyIntRepr
    rw [if_neg (not_lt.2 hv)]
  · intro n
    obtain ⟨_, h2, h3, h4⟩ := natDigits_spec n
    exact ⟨h2, h3, h4⟩

/-- Witness for C8: the host reporting `"5"` is flagged updatable with
rendering `"5.0"`. -/
theorem c8_witness :
    ∃ rec v a b,
      (("h" : String), rec) ∈ ([("h", ⟨some "5"⟩)] : Inventory) ∧
      rec.saltversion = some v ∧ parse_version v = some (a, b) ∧
      ("5.0" : String) = fmtVersion a b :=
  c8_flagged_rendering.1 "3007.6" [("h", ⟨some "5"⟩)] [("h", "5.0")] [] []
    "h" "5.0" (by decide) (Or.inl (by decide))
